import Mathlib

-- Verification of the secret-scrubbing rewrite engine:
-- the commit progress ledger (commit.py), the blob scrubber (file-info.py)
-- and the commit message redactor (message.py), embedded as pure functions.

namespace CleanSecrets

-- ===== Message redactor (message.py) =====

/-- Byte values of the literal SECRET scanned for in commit messages. -/
def SECRETB : List Nat := [83, 69, 67, 82, 69, 84]

/-- Byte values of the replacement literal [REDACTED]. -/
def REDACTEDB : List Nat := [91, 82, 69, 68, 65, 67, 84, 69, 68, 93]

/-- Byte values of the lowercase literal secret. -/
def secretLowerB : List Nat := [115, 101, 99, 114, 101, 116]

/-- Substring membership on byte lists, as the Python operator in used by the
message callback: the pattern occurs iff it is a prefix of some suffix. -/
def occursIn (pat : List Nat) : List Nat → Bool
  | [] => pat.isEmpty
  | b :: rest => pat.isPrefixOf (b :: rest) || occursIn pat rest

/-- Left-to-right non-overlapping replacement of SECRET by [REDACTED], as
Python bytes.replace specialized to the fixed pattern of the callback. -/
def replaceSecret : List Nat → List Nat
  | [] => []
  | b :: rest =>
    if SECRETB.isPrefixOf (b :: rest) then
      REDACTEDB ++ replaceSecret (rest.drop 5)
    else
      b :: replaceSecret rest
termination_by l => l.length
decreasing_by
  all_goals simp [List.length_drop]
  omega

/-- The message callback body: when SECRET occurs in the message, return the
replaced message, otherwise return the message unchanged. -/
def redact (m : List Nat) : List Nat :=
  if occursIn SECRETB m then replaceSecret m else m

/-- Prepending the replacement block cannot create a SECRET occurrence:
the first byte of SECRET does not occur in [REDACTED]. -/
theorem occursIn_redacted_append (ys : List Nat) :
    occursIn SECRETB (REDACTEDB ++ ys) = occursIn SECRETB ys := by
  simp [REDACTEDB, SECRETB, occursIn, List.isPrefixOf]

/-- A nonempty suffix of SECRET that is a prefix of the replaced list was
already a prefix of the input list. -/
theorem isPrefixOf_of_isPrefixOf_replaceSecret :
    ∀ (xs p : List Nat), p ≠ [] → p <:+ SECRETB →
      p.isPrefixOf (replaceSecret xs) = true → p.isPrefixOf xs = true := by
  intro xs
  induction xs with
  | nil =>
    intro p hne _ h
    rcases p with _ | ⟨c, p'⟩
    · exact absurd rfl hne
    · simp [replaceSecret, List.isPrefixOf] at h
  | cons b rest ih =>
    intro p hne hsuf h
    rcases p with _ | ⟨c, p'⟩
    · exact absurd rfl hne
    have hcmem : c ∈ SECRETB := hsuf.subset (by simp)
    by_cases hm : SECRETB.isPrefixOf (b :: rest) = true
    · rw [replaceSecret, if_pos hm] at h
      simp [REDACTEDB, List.isPrefixOf] at h
      rw [h.1] at hcmem
      simp [SECRETB] at hcmem
    · rw [replaceSecret, if_neg hm] at h
      simp only [List.isPrefixOf] at h ⊢
      simp only [Bool.and_eq_true, beq_iff_eq] at h ⊢
      refine ⟨h.1, ?_⟩
      rcases p' with _ | ⟨d, p''⟩
      · simp [List.isPrefixOf]
      · exact ih (d :: p'') (by simp) ((List.suffix_cons c _).trans hsuf) h.2

/-- After replacement no occurrence of SECRET remains anywhere. -/
theorem occursIn_replaceSecret (xs : List Nat) :
    occursIn SECRETB (replaceSecret xs) = false := by
  induction xs using replaceSecret.induct with
  | case1 => simp [replaceSecret, occursIn, SECRETB]
  | case2 b rest hm ih =>
    rw [replaceSecret, if_pos hm, occursIn_redacted_append]
    exact ih
  | case3 b rest hm ih =>
    rw [replaceSecret, if_neg hm]
    rw [occursIn]
    simp only [Bool.or_eq_false_iff]
    refine ⟨?_, ih⟩
    by_contra hp
    simp only [Bool.not_eq_false] at hp
    have hstep : SECRETB.isPrefixOf (replaceSecret (b :: rest)) = true := by
      rw [replaceSecret, if_neg hm]; exact hp
    have := isPrefixOf_of_isPrefixOf_replaceSecret (b :: rest) SECRETB
      (by simp [SECRETB]) List.suffix_rfl hstep
    exact hm this

/-- The redacted message never contains SECRET. -/
theorem occursIn_redact (m : List Nat) :
    occursIn SECRETB (redact m) = false := by
  rw [redact]
  by_cases h : occursIn SECRETB m = true
  · rw [if_pos h]; exact occursIn_replaceSecret m
  · simp only [Bool.not_eq_true] at h
    rw [h]; simp [h]

/-- If SECRET is a prefix of some suffix starting in the appended tail,
the whole list has an occurrence. -/
theorem occursIn_append_of_isPrefixOf :
    ∀ (u w : List Nat), SECRETB.isPrefixOf w = true →
      occursIn SECRETB (u ++ w) = true := by
  intro u w h
  induction u with
  | nil =>
    rcases w with _ | ⟨b, w'⟩
    · simp [SECRETB, List.isPrefixOf] at h
    · simp [occursIn, h]
  | cons a u' ih => simp [occursIn, ih]

/-- A SECRET prefix of the result entails an occurrence of SECRET. -/
theorem occursIn_of_leading (u : List Nat) (h : SECRETB <+: u) :
    occursIn SECRETB u = true := by
  obtain ⟨t, rfl⟩ := h
  simpa using occursIn_append_of_isPrefixOf [] (SECRETB ++ t)
    (by rw [List.isPrefixOf_iff_prefix]; exact List.prefix_append _ _)

/-- SECRET has no nontrivial self-overlap: when a list with no SECRET
occurrence is followed by SECRET, SECRET can be a prefix of the
concatenation only if that list is empty. -/
theorem eq_nil_of_prefix_overlap :
    ∀ (u v : List Nat), occursIn SECRETB u = false →
      SECRETB.isPrefixOf (u ++ SECRETB ++ v) = true → u = [] := by
  intro u v hocc hpre
  by_contra hne
  rw [List.isPrefixOf_iff_prefix] at hpre
  by_cases hlen : 6 ≤ u.length
  · have hu : SECRETB <+: u := by
      refine List.prefix_of_prefix_length_le hpre ?_ (by simp [SECRETB]; omega)
      exact (List.prefix_append u SECRETB).trans (List.prefix_append _ v)
    rw [occursIn_of_leading u hu] at hocc
    exact Bool.true_eq_false.mp hocc
  · have hu2 : u <+: SECRETB := by
      refine List.prefix_of_prefix_length_le ?_ hpre (by simp [SECRETB]; omega)
      exact (List.prefix_append u SECRETB).trans (List.prefix_append _ v)
    have hu3 : u = SECRETB.take u.length := List.prefix_iff_eq_take.mp hu2
    have h1 : 1 ≤ u.length := List.length_pos.mpr hne
    obtain ⟨k, hk⟩ : ∃ k, u.length = k := ⟨_, rfl⟩
    rw [hk] at hu3 h1
    have h6 : k < 6 := hk ▸ Nat.lt_of_not_le hlen
    have hp6 : SECRETB <+: u ++ SECRETB := by
      refine List.prefix_of_prefix_length_le hpre (List.prefix_append _ v) ?_
      simp [SECRETB]
    interval_cases k <;>
      (simp only [SECRETB, List.take] at hu3; subst hu3; exact absurd hp6 (by decide))

/-- The first SECRET occurrence together with everything before it is
rewritten in place: bytes before it are kept, the occurrence becomes
[REDACTED], and replacement continues after it. -/
theorem replaceSecret_append_first :
    ∀ (u v : List Nat), occursIn SECRETB u = false →
      replaceSecret (u ++ SECRETB ++ v) = u ++ REDACTEDB ++ replaceSecret v := by
  intro u
  induction u with
  | nil =>
    intro v _
    simp only [List.nil_append]
    rw [show SECRETB ++ v = 83 :: ([69, 67, 82, 69, 84] ++ v) from by simp [SECRETB]]
    rw [replaceSecret]
    rw [if_pos (by
      rw [List.isPrefixOf_iff_prefix,
        show (83 : Nat) :: ([69, 67, 82, 69, 84] ++ v) = SECRETB ++ v from by
          simp [SECRETB]]
      exact List.prefix_append _ _)]
    rfl
  | cons a u' ih =>
    intro v hocc
    rw [occursIn] at hocc
    simp only [Bool.or_eq_false_iff] at hocc
    have hnp2 : ¬ SECRETB.isPrefixOf (a :: (u' ++ SECRETB ++ v)) = true := by
      intro hp
      have := eq_nil_of_prefix_overlap (a :: u') v (by rw [occursIn]; simp [hocc.1, hocc.2])
        (by simpa using hp)
      simp at this
    simp only [List.cons_append]
    rw [replaceSecret, if_neg hnp2, ih v hocc.2]

-- ===== Blob scrubber (file-info.py) =====

/-- Python line-boundary characters recognized by str.splitlines. -/
def isLineBreak (c : Char) : Bool :=
  c == '\n' || c == '\r' || [11, 12, 28, 29, 30, 133, 8232, 8233].contains c.toNat

/-- Collapses every CRLF pair into a single newline, so that a subsequent
single-character split treats the pair as one boundary, exactly as
str.splitlines does. -/
def collapseCRLF : List Char → List Char
  | [] => []
  | [c] => [c]
  | c1 :: c2 :: rest =>
    if c1 = '\r' ∧ c2 = '\n' then '\n' :: collapseCRLF rest
    else c1 :: collapseCRLF (c2 :: rest)

/-- Accumulator pass of the single-character line splitter: a boundary closes
the current line; a trailing unterminated line is still emitted, and empty
input yields no lines. -/
def splitAux (acc : List Char) : List Char → List (List Char)
  | [] => if acc.isEmpty then [] else [acc.reverse]
  | c :: rest =>
    if isLineBreak c then acc.reverse :: splitAux [] rest
    else splitAux (c :: acc) rest

/-- The semantics of str.splitlines on decoded content. -/
def splitlines (cs : List Char) : List (List Char) :=
  splitAux [] (collapseCRLF cs)

/-- One finding of the Finding Index: a decoded file path and a 1-based
start line as read from the findings source. -/
abbrev FindingEntry : Type := List Char × Int

/-- The per-file membership test of the callback: any finding whose file
field equals the decoded filename. -/
def hasSecret (bad_lines : List FindingEntry) (name : List Char) : Bool :=
  bad_lines.any (fun p => p.1 = name)

/-- The line-blanking loop of the callback: for every finding that names
this file and lies in range, the addressed line is set to the empty
string; all other findings leave the buffer untouched. -/
def blankLines (bad_lines : List FindingEntry) (name : List Char)
    (lines : List (List Char)) : List (List Char) :=
  match bad_lines with
  | [] => lines
  | (f, lnum) :: rest =>
    blankLines rest name
      (if f = name ∧ 0 < lnum ∧ lnum ≤ (lines.length : Int) then
        lines.set (lnum - 1).toNat []
      else lines)

/-- The join of Python, with a single newline separator and no terminator. -/
def joinNL : List (List Char) → List Char
  | [] => []
  | [l] => l
  | l :: l2 :: ls => l ++ '\n' :: joinNL (l2 :: ls)

/-- Scrubbed content: the possibly blanked lines joined with newlines, plus
exactly one appended trailing newline. -/
def scrubContents (bad_lines : List FindingEntry) (name : List Char)
    (contents : List Char) : List Char :=
  joinNL (blankLines bad_lines name (splitlines contents)) ++ ['\n']

/-- Result of the file-info callback: either the identical input triple, or
the same path and mode with freshly written content (the new blob id is
assigned by the collaborating engine from these bytes). -/
inductive ScrubResult where
  | passthrough (filename : List Char) (mode : Nat) (blobId : Nat)
  | rewritten (filename : List Char) (mode : Nat) (newContents : List Char)
deriving DecidableEq

/-- Filename component of a callback result. -/
def ScrubResult.fname : ScrubResult → List Char
  | .passthrough f _ _ => f
  | .rewritten f _ _ => f

/-- Mode component of a callback result. -/
def ScrubResult.fmode : ScrubResult → Nat
  | .passthrough _ m _ => m
  | .rewritten _ m _ => m

/-- The file-info callback body: with no finding for this path the input
triple is returned as is and the content fetcher is never consulted;
otherwise the blob content is fetched, scrubbed and rewritten, with path
and mode passed through unchanged. -/
def scrub (bad_lines : List FindingEntry) (filename : List Char) (mode : Nat)
    (blob_id : Nat) (fetch : Nat → List Char) : ScrubResult :=
  if hasSecret bad_lines filename then
    ScrubResult.rewritten filename mode (scrubContents bad_lines filename (fetch blob_id))
  else
    ScrubResult.passthrough filename mode blob_id

/-- Configuration failures of the Finding Index load: the findings source
could not be read, or not parsed. -/
inductive ConfigError where
  | unreadable
  | unparsable
deriving DecidableEq

/-- The whole file-info callback including the memoized Finding Index load:
the source read and JSON parse have no handler in the callback, so a
failure propagates to the caller and no scrubbing happens. -/
def fileInfoCallback (source : Except ConfigError (List FindingEntry))
    (filename : List Char) (mode : Nat) (blob_id : Nat)
    (fetch : Nat → List Char) : Except ConfigError ScrubResult :=
  match source with
  | .error e => .error e
  | .ok bad_lines => .ok (scrub bad_lines filename mode blob_id fetch)

/-- A finding whose file names this path and whose line lies in the range
of the buffer, addressing 0-based position j. -/
def Targets (bad_lines : List FindingEntry) (name : List Char) (n : Nat)
    (j : Nat) : Prop :=
  ∃ p ∈ bad_lines, p.1 = name ∧ 0 < p.2 ∧ p.2 ≤ (n : Int) ∧ (p.2 - 1).toNat = j

instance (bad_lines : List FindingEntry) (name : List Char) (n j : Nat) :
    Decidable (Targets bad_lines name n j) := by
  unfold Targets; infer_instance

/-- Blanking never changes the number of lines. -/
theorem blankLines_length :
    ∀ (bad_lines : List FindingEntry) (name : List Char) (lines : List (List Char)),
      (blankLines bad_lines name lines).length = lines.length := by
  intro bl
  induction bl with
  | nil => intro name lines; rfl
  | cons p rest ih =>
    intro name lines
    obtain ⟨f, k⟩ := p
    rw [blankLines]
    by_cases hc : f = name ∧ 0 < k ∧ k ≤ (lines.length : Int)
    · rw [if_pos hc, ih, List.length_set]
    · rw [if_neg hc, ih]

/-- A position never addressed by an in-range finding for this path keeps
its original line. -/
theorem blankLines_get_of_not_target :
    ∀ (bad_lines : List FindingEntry) (name : List Char)
      (lines : List (List Char)) (j : Nat),
      ¬ Targets bad_lines name lines.length j →
      (blankLines bad_lines name lines)[j]? = lines[j]? := by
  intro bl
  induction bl with
  | nil => intro name lines j _; rfl
  | cons p rest ih =>
    intro name lines j hT
    obtain ⟨f, k⟩ := p
    rw [blankLines]
    by_cases hc : f = name ∧ 0 < k ∧ k ≤ (lines.length : Int)
    · rw [if_pos hc]
      have hij : (k - 1).toNat ≠ j := by
        intro h
        exact hT ⟨(f, k), List.mem_cons_self _ _, hc.1, hc.2.1, hc.2.2, h⟩
      have hTr : ¬ Targets rest name (lines.set (k - 1).toNat []).length j := by
        rw [List.length_set]
        intro ⟨q, hq, h1, h2, h3, h4⟩
        exact hT ⟨q, List.mem_cons_of_mem _ hq, h1, h2, h3, h4⟩
      rw [ih name _ j hTr, List.getElem?_set_ne hij]
    · rw [if_neg hc]
      refine ih name lines j ?_
      intro ⟨q, hq, h1, h2, h3, h4⟩
      exact hT ⟨q, List.mem_cons_of_mem _ hq, h1, h2, h3, h4⟩

/-- A position addressed by some in-range finding for this path holds the
empty line after blanking. -/
theorem blankLines_get_of_target :
    ∀ (bad_lines : List FindingEntry) (name : List Char)
      (lines : List (List Char)) (j : Nat),
      Targets bad_lines name lines.length j →
      (blankLines bad_lines name lines)[j]? = some [] := by
  intro bl
  induction bl with
  | nil =>
    intro name lines j hT
    obtain ⟨q, hq, -⟩ := hT
    exact absurd hq (List.not_mem_nil q)
  | cons p rest ih =>
    intro name lines j hT
    obtain ⟨f, k⟩ := p
    rw [blankLines]
    by_cases hTr : Targets rest name lines.length j
    · by_cases hc : f = name ∧ 0 < k ∧ k ≤ (lines.length : Int)
      · rw [if_pos hc]
        refine ih name _ j ?_
        rw [List.length_set]
        exact hTr
      · rw [if_neg hc]
        exact ih name lines j hTr
    · obtain ⟨q, hq, h1, h2, h3, h4⟩ := hT
      rcases List.mem_cons.mp hq with hq | hq
      · subst hq
        have hc : f = name ∧ 0 < k ∧ k ≤ (lines.length : Int) := ⟨h1, h2, h3⟩
        rw [if_pos hc]
        have hlen : (k - 1).toNat < lines.length := by omega
        have hTr2 : ¬ Targets rest name (lines.set (k - 1).toNat []).length j := by
          rw [List.length_set]
          exact hTr
        rw [blankLines_get_of_not_target rest name _ j hTr2, ← h4,
          List.getElem?_set_self hlen]
      · exact absurd ⟨q, hq, h1, h2, h3, h4⟩ hTr

/-- Findings that are all non-positive or beyond the buffer leave the
buffer untouched. -/
theorem blankLines_noop_of_out_of_range :
    ∀ (bad_lines : List FindingEntry) (name : List Char)
      (lines : List (List Char)),
      (∀ p ∈ bad_lines, p.1 = name → p.2 ≤ 0 ∨ (lines.length : Int) < p.2) →
      blankLines bad_lines name lines = lines := by
  intro bl
  induction bl with
  | nil => intro name lines _; rfl
  | cons p rest ih =>
    intro name lines hout
    obtain ⟨f, k⟩ := p
    rw [blankLines]
    have hc : ¬ (f = name ∧ 0 < k ∧ k ≤ (lines.length : Int)) := by
      intro ⟨h1, h2, h3⟩
      rcases hout (f, k) (List.mem_cons_self _ _) h1 with h | h <;> omega
    rw [if_neg hc]
    exact ih name lines (fun q hq => hout q (List.mem_cons_of_mem _ hq))

/-- Every line of the blanked buffer is an original line or empty. -/
theorem blankLines_mem :
    ∀ (bad_lines : List FindingEntry) (name : List Char)
      (lines : List (List Char)) (l : List Char),
      l ∈ blankLines bad_lines name lines → l ∈ lines ∨ l = [] := by
  intro bl
  induction bl with
  | nil => intro name lines l hl; exact Or.inl hl
  | cons p rest ih =>
    intro name lines l hl
    obtain ⟨f, k⟩ := p
    rw [blankLines] at hl
    by_cases hc : f = name ∧ 0 < k ∧ k ≤ (lines.length : Int)
    · rw [if_pos hc] at hl
      rcases ih name _ l hl with hmem | hnil
      · rcases List.mem_or_eq_of_mem_set hmem with h | h
        · exact Or.inl h
        · exact Or.inr h
      · exact Or.inr hnil
    · rw [if_neg hc] at hl
      exact ih name lines l hl

/-- Every character of the joined lines is a newline separator or comes
from one of the lines. -/
theorem joinNL_mem :
    ∀ (L : List (List Char)) (c : Char),
      c ∈ joinNL L → c = '\n' ∨ ∃ l ∈ L, c ∈ l := by
  intro L
  induction L with
  | nil => intro c hc; simp [joinNL] at hc
  | cons l ls ih =>
    intro c hc
    rcases ls with _ | ⟨l2, ls'⟩
    · exact Or.inr ⟨l, by simp, by simpa [joinNL] using hc⟩
    · rw [joinNL] at hc
      rcases List.mem_append.mp hc with h | h
      · exact Or.inr ⟨l, by simp, h⟩
      · rcases List.mem_cons.mp h with h | h
        · exact Or.inl h
        · rcases ih c h with h | ⟨l3, hl3, hcl3⟩
          · exact Or.inl h
          · exact Or.inr ⟨l3, List.mem_cons_of_mem _ hl3, hcl3⟩

/-- The single-character splitter only emits lines free of boundary
characters, provided the accumulator holds none. -/
theorem splitAux_no_break :
    ∀ (cs acc : List Char),
      (∀ a ∈ acc, isLineBreak a = false) →
      ∀ l ∈ splitAux acc cs, ∀ a ∈ l, isLineBreak a = false := by
  intro cs
  induction cs with
  | nil =>
    intro acc hacc l hl a ha
    rw [splitAux] at hl
    by_cases he : acc.isEmpty
    · simp [he] at hl
    · simp [he] at hl
      subst hl
      exact hacc a (List.mem_reverse.mp ha)
  | cons c rest ih =>
    intro acc hacc l hl a ha
    rw [splitAux] at hl
    by_cases hb : isLineBreak c = true
    · rw [if_pos hb] at hl
      rcases List.mem_cons.mp hl with h | h
      · subst h
        exact hacc a (List.mem_reverse.mp ha)
      · exact ih [] (by simp) l h a ha
    · simp only [Bool.not_eq_true] at hb
      rw [hb] at hl
      simp only [Bool.false_eq_true, if_false] at hl
      refine ih (c :: acc) ?_ l hl a ha
      intro x hx
      rcases List.mem_cons.mp hx with h | h
      · subst h; exact hb
      · exact hacc x h

/-- Every line produced by splitlines is free of boundary characters. -/
theorem splitlines_no_break (cs : List Char) :
    ∀ l ∈ splitlines cs, ∀ a ∈ l, isLineBreak a = false := by
  intro l hl a ha
  exact splitAux_no_break (collapseCRLF cs) [] (by simp) l hl a ha

/-- Appending a final newline after a non-boundary character does not
change the split, for the single-character splitter. -/
theorem splitAux_append_terminator :
    ∀ (ds : List Char) (c : Char) (acc : List Char), isLineBreak c = false →
      splitAux acc (ds ++ [c, '\n']) = splitAux acc (ds ++ [c]) := by
  intro ds
  induction ds with
  | nil =>
    intro c acc hc
    have h1 : isLineBreak '\n' = true := by decide
    simp [splitAux, hc, h1]
  | cons d ds' ih =>
    intro c acc hc
    by_cases hd : isLineBreak d = true
    · simp [splitAux, hd, ih c [] hc]
    · simp only [Bool.not_eq_true] at hd
      simp [splitAux, hd, ih c (d :: acc) hc]

/-- Collapsing distributes over appending a final newline after a
non-boundary character: the new terminator never pairs into a CRLF. -/
theorem collapseCRLF_append_two :
    ∀ (cs : List Char) (c : Char), isLineBreak c = false →
      collapseCRLF (cs ++ [c, '\n']) = collapseCRLF (cs ++ [c]) ++ ['\n'] := by
  intro cs
  induction cs using collapseCRLF.induct with
  | case1 =>
    intro c hc
    have hcr : ¬ c = '\r' := by
      intro h
      subst h
      simp [isLineBreak] at hc
    simp [collapseCRLF, hcr]
  | case2 c1 =>
    intro c hc
    have hnn : ¬ (c1 = '\r' ∧ c = '\n') := by
      intro ⟨_, h⟩
      subst h
      simp [isLineBreak] at hc
    have hcr : ¬ c = '\r' := by
      intro h
      subst h
      simp [isLineBreak] at hc
    simp [collapseCRLF, hnn, hcr]
  | case3 c1 c2 rest h ih =>
    intro c hc
    obtain ⟨h1, h2⟩ := h
    subst h1
    subst h2
    simp only [List.cons_append]
    rw [collapseCRLF, collapseCRLF]
    simp [ih c hc]
  | case4 c1 c2 rest h ih =>
    intro c hc
    simp only [List.cons_append]
    rw [collapseCRLF, collapseCRLF, if_neg h, if_neg h]
    simpa using ih c hc

/-- Collapsing content that ends in a non-boundary character leaves that
final character in final position. -/
theorem collapseCRLF_concat_last :
    ∀ (cs : List Char) (c : Char), isLineBreak c = false →
      ∃ ds, collapseCRLF (cs ++ [c]) = ds ++ [c] := by
  intro cs
  induction cs using collapseCRLF.induct with
  | case1 =>
    intro c _
    exact ⟨[], by simp [collapseCRLF]⟩
  | case2 c1 =>
    intro c hc
    have hnn : ¬ (c1 = '\r' ∧ c = '\n') := by
      intro ⟨_, h⟩
      subst h
      simp [isLineBreak] at hc
    exact ⟨[c1], by simp [collapseCRLF, hnn]⟩
  | case3 c1 c2 rest h ih =>
    intro c hc
    obtain ⟨h1, h2⟩ := h
    subst h1
    subst h2
    obtain ⟨ds, hds⟩ := ih c hc
    refine ⟨'\n' :: ds, ?_⟩
    simp only [List.cons_append]
    rw [collapseCRLF]
    simp [hds]
  | case4 c1 c2 rest h ih =>
    intro c hc
    obtain ⟨ds, hds⟩ := ih c hc
    refine ⟨c1 :: ds, ?_⟩
    simp only [List.cons_append]
    rw [collapseCRLF, if_neg h]
    simp only [List.cons_append] at hds
    simp [hds]

/-- Appending one newline terminator to content that ends in an ordinary
character does not change the split lines. -/
theorem splitlines_append_newline (cs : List Char) (c : Char)
    (hc : isLineBreak c = false) :
    splitlines (cs ++ [c, '\n']) = splitlines (cs ++ [c]) := by
  unfold splitlines
  rw [collapseCRLF_append_two cs c hc]
  obtain ⟨ds, hds⟩ := collapseCRLF_concat_last cs c hc
  rw [hds]
  have h2 := splitAux_append_terminator ds c [] hc
  simpa [List.append_assoc] using h2

/-- Scrubbed output does not depend on whether the original content had a
trailing newline. -/
theorem scrubContents_trailing_invariant (bad_lines : List FindingEntry)
    (name : List Char) (cs : List Char) (c : Char)
    (hc : isLineBreak c = false) :
    scrubContents bad_lines name (cs ++ [c, '\n']) =
      scrubContents bad_lines name (cs ++ [c]) := by
  unfold scrubContents
  rw [splitlines_append_newline cs c hc]

/-- Every character of the scrubbed output other than the newline
separators originates in a split line, hence is not a boundary character. -/
theorem scrubContents_no_break (bad_lines : List FindingEntry)
    (name : List Char) (contents : List Char) :
    ∀ c ∈ scrubContents bad_lines name contents,
      c ≠ '\n' → isLineBreak c = false := by
  intro c hc hne
  unfold scrubContents at hc
  rcases List.mem_append.mp hc with h | h
  · rcases joinNL_mem _ c h with h | ⟨l, hl, hcl⟩
    · exact absurd h hne
    · rcases blankLines_mem bad_lines name _ l hl with hmem | hnil
      · exact splitlines_no_break contents l hmem c hcl
      · subst hnil
        exact absurd hcl (List.not_mem_nil c)
  · simp at h
    exact absurd h hne

-- ===== Progress ledger (commit.py) =====

/-- One appended progress-file line, with its fields before formatting:
commit hash, the memoized total, the processed counter, and the exact
percentage value computed for the line. -/
structure ProgressLine where
  hash : String
  total : Nat
  processed : Nat
  pct : Rat
deriving DecidableEq

/-- The per-process run state of the commit callback: the memoized total
from the stats source, the dedup set, the processed counter, and the
progress file contents produced so far (append-only). -/
structure RunState where
  total_commits : Nat
  seen_hashes : List String
  processed_count : Nat
  progress : List ProgressLine
deriving DecidableEq

/-- The percentage computed for a progress line: processed over total
times one hundred when the total is positive, else zero. -/
def pctOf (total processed : Nat) : Rat :=
  if 0 < total then ((processed : Rat) / (total : Rat)) * 100 else 0

/-- Lazy first-call initialization: the total comes from the stats source
and any read or parse failure (or missing key) yields the default 0;
the dedup set and the counter start empty. -/
def initState (stats : Option Nat) : RunState :=
  { total_commits := stats.getD 0
    seen_hashes := []
    processed_count := 0
    progress := [] }

/-- One invocation of the commit callback on a commit hash: an already
seen hash changes nothing; a new hash enters the dedup set, bumps the
counter and appends exactly one progress line. -/
def record (st : RunState) (h : String) : RunState :=
  if h ∈ st.seen_hashes then st
  else
    { total_commits := st.total_commits
      seen_hashes := h :: st.seen_hashes
      processed_count := st.processed_count + 1
      progress := st.progress ++
        [⟨h, st.total_commits, st.processed_count + 1,
          pctOf st.total_commits (st.processed_count + 1)⟩] }

/-- A whole process run: the lazily initialized state threaded through one
record call per commit visited, in order. -/
def runLedger (stats : Option Nat) (ids : List String) : RunState :=
  ids.foldl record (initState stats)

/-- The progress lines a run is expected to append while holding dedup set
seen and counter base: one line per first occurrence of a new hash, with
the counter incremented at each. -/
def expectedLines (total : Nat) : List String → Nat → List String → List ProgressLine
  | _, _, [] => []
  | seen, base, h :: t =>
    if h ∈ seen then expectedLines total seen base t
    else ⟨h, total, base + 1, pctOf total (base + 1)⟩ ::
      expectedLines total (h :: seen) (base + 1) t

/-- A repeated hash leaves the run state completely unchanged: no progress
write, no counter increment, no dedup-set change. -/
theorem record_seen (st : RunState) (h : String)
    (hs : h ∈ st.seen_hashes) : record st h = st := by
  simp [record, hs]

/-- Characterization of a whole run fold: it appends exactly the expected
lines for the ids not yet seen, starting from the current counter. -/
theorem foldl_record_progress :
    ∀ (ids : List String) (st : RunState),
      (List.foldl record st ids).progress =
        st.progress ++
          expectedLines st.total_commits st.seen_hashes st.processed_count ids := by
  intro ids
  induction ids with
  | nil => intro st; simp [expectedLines]
  | cons h t ih =>
    intro st
    by_cases hs : h ∈ st.seen_hashes
    · rw [List.foldl_cons, record_seen st h hs, ih st, expectedLines, if_pos hs]
    · rw [List.foldl_cons, ih (record st h)]
      rw [expectedLines, if_neg hs]
      simp [record, hs]

/-- Each expected line counts one more processed commit than the lines
before it: the counter in line i is base + i + 1. -/
theorem expectedLines_processed :
    ∀ (ids seen : List String) (total base i : Nat) (line : ProgressLine),
      (expectedLines total seen base ids)[i]? = some line →
      line.processed = base + i + 1 := by
  intro ids
  induction ids with
  | nil => intro seen total base i line hl; simp [expectedLines] at hl
  | cons h t ih =>
    intro seen total base i line hl
    by_cases hs : h ∈ seen
    · rw [expectedLines, if_pos hs] at hl
      exact ih seen total base i line hl
    · rw [expectedLines, if_neg hs] at hl
      rcases i with _ | j
      · simp only [List.getElem?_cons_zero, Option.some.injEq] at hl
        rw [← hl]
      · simp only [List.getElem?_cons_succ] at hl
        have := ih (h :: seen) total (base + 1) j line hl
        omega

/-- Each distinct id not already seen gets exactly one expected line; a
seen or absent id gets none, no matter how often it repeats. -/
theorem expectedLines_hash_count :
    ∀ (ids seen : List String) (total base : Nat) (h : String),
      ((expectedLines total seen base ids).map ProgressLine.hash).count h =
        if h ∈ ids ∧ ¬ h ∈ seen then 1 else 0 := by
  intro ids
  induction ids with
  | nil => intro seen total base h; simp [expectedLines]
  | cons h0 t ih =>
    intro seen total base h
    by_cases hs : h0 ∈ seen
    · rw [expectedLines, if_pos hs, ih]
      by_cases hh : h = h0
      · subst hh
        simp [hs]
      · simp [List.mem_cons, hh]
    · rw [expectedLines, if_neg hs]
      simp only [List.map_cons, List.count_cons, ih]
      by_cases hh : h = h0
      · subst hh
        simp [hs]
      · simp [List.mem_cons, hh, Ne.symm hh]

/-- Every expected line carries the percentage computed by the formula of
the callback from its own counter value. -/
theorem expectedLines_pct :
    ∀ (ids seen : List String) (total base : Nat) (line : ProgressLine),
      line ∈ expectedLines total seen base ids →
        line.pct = pctOf total line.processed := by
  intro ids
  induction ids with
  | nil => intro seen total base line hl; simp [expectedLines] at hl
  | cons h t ih =>
    intro seen total base line hl
    by_cases hs : h ∈ seen
    · rw [expectedLines, if_pos hs] at hl
      exact ih seen total base line hl
    · rw [expectedLines, if_neg hs] at hl
      rcases List.mem_cons.mp hl with h1 | h1
      · subst h1; rfl
      · exact ih (h :: seen) total (base + 1) line h1

/-- With a zero total every computed percentage is exactly zero. -/
theorem pctOf_zero (p : Nat) : pctOf 0 p = 0 := by simp [pctOf]

-- ===== Claim theorems =====

/-- C1: within one process run the progress file gains exactly one appended
line per distinct commit id, however often an id repeats; the processed
count in line i is i + 1, the number of distinct ids seen so far including
that one; and a call with an already seen id performs no progress write and
no counter increment. -/
theorem ledger_exactly_once :
    ∀ (stats : Option Nat) (ids : List String),
      (runLedger stats ids).progress = expectedLines (stats.getD 0) [] 0 ids
      ∧ (∀ h : String,
          (((runLedger stats ids).progress.map ProgressLine.hash).count h) =
            if h ∈ ids then 1 else 0)
      ∧ (∀ (i : Nat) (line : ProgressLine),
          ((runLedger stats ids).progress)[i]? = some line →
            line.processed = i + 1)
      ∧ (∀ (st : RunState) (h : String), h ∈ st.seen_hashes → record st h = st) := by
  intro stats ids
  have hp : (runLedger stats ids).progress = expectedLines (stats.getD 0) [] 0 ids := by
    rw [runLedger, foldl_record_progress]
    simp [initState]
  refine ⟨hp, ?_, ?_, fun st h hs => record_seen st h hs⟩
  · intro h
    rw [hp, expectedLines_hash_count]
    simp
  · intro i line hl
    rw [hp] at hl
    simpa using expectedLines_processed ids [] (stats.getD 0) 0 i line hl

theorem ledger_exactly_once_spot :
    record
      { total_commits := 10, seen_hashes := ["a"], processed_count := 1,
        progress := [] } "a" =
      { total_commits := 10, seen_hashes := ["a"], processed_count := 1,
        progress := [] } :=
  (ledger_exactly_once (some 10) []).2.2.2
    { total_commits := 10, seen_hashes := ["a"], processed_count := 1,
      progress := [] } "a" (by simp)

/-- C2: with no finding for the decoded path, scrub returns the identical
triple and its result does not depend on the content fetcher at all; and in
every case the returned path and mode are the unchanged inputs. -/
theorem scrub_passthrough_no_fetch :
    ∀ (bad_lines : List FindingEntry) (filename : List Char) (mode blob_id : Nat)
      (fetch fetch2 : Nat → List Char),
      (hasSecret bad_lines filename = false →
        scrub bad_lines filename mode blob_id fetch =
            ScrubResult.passthrough filename mode blob_id
          ∧ scrub bad_lines filename mode blob_id fetch =
              scrub bad_lines filename mode blob_id fetch2)
      ∧ (scrub bad_lines filename mode blob_id fetch).fname = filename
      ∧ (scrub bad_lines filename mode blob_id fetch).fmode = mode := by
  intro bl filename mode blob_id fetch fetch2
  refine ⟨fun hno => ?_, ?_, ?_⟩
  · rw [scrub, scrub, hno]
    simp [ScrubResult.fname, ScrubResult.fmode]
  · cases hs : hasSecret bl filename <;>
      simp [scrub, hs, ScrubResult.fname]
  · cases hs : hasSecret bl filename <;>
      simp [scrub, hs, ScrubResult.fmode]

theorem scrub_passthrough_no_fetch_spot :
    scrub [(['a'], 1)] ['b'] 33188 7 (fun _ => ['x']) =
        ScrubResult.passthrough ['b'] 33188 7
      ∧ scrub [(['a'], 1)] ['b'] 33188 7 (fun _ => ['x']) =
          scrub [(['a'], 1)] ['b'] 33188 7 (fun _ => ['y', 'z']) :=
  (scrub_passthrough_no_fetch [(['a'], 1)] ['b'] 33188 7
    (fun _ => ['x']) (fun _ => ['y', 'z'])).1 (by decide)

/-- C3: a finding for this path at a valid 1-based line k blanks buffer
index k - 1 to the empty line; the line count is preserved and every
position not addressed by an in-range finding keeps its original line. -/
theorem scrub_blanks_valid_line :
    ∀ (bad_lines : List FindingEntry) (name : List Char) (mode blob_id : Nat)
      (fetch : Nat → List Char) (k : Int),
      (name, k) ∈ bad_lines → 0 < k →
      k ≤ ((splitlines (fetch blob_id)).length : Int) →
      scrub bad_lines name mode blob_id fetch =
        ScrubResult.rewritten name mode
          (joinNL (blankLines bad_lines name (splitlines (fetch blob_id))) ++ ['\n'])
      ∧ (blankLines bad_lines name (splitlines (fetch blob_id))).length =
          (splitlines (fetch blob_id)).length
      ∧ (blankLines bad_lines name (splitlines (fetch blob_id)))[(k - 1).toNat]? =
          some []
      ∧ (∀ j : Nat, ¬ Targets bad_lines name (splitlines (fetch blob_id)).length j →
          (blankLines bad_lines name (splitlines (fetch blob_id)))[j]? =
            (splitlines (fetch blob_id))[j]?) := by
  intro bl name mode blob_id fetch k hmem hk0 hklen
  have hsec : hasSecret bl name = true := by
    unfold hasSecret
    rw [List.any_eq_true]
    exact ⟨(name, k), hmem, by simp⟩
  refine ⟨?_, blankLines_length bl name _, ?_, ?_⟩
  · rw [scrub, if_pos hsec]
    rfl
  · exact blankLines_get_of_target bl name _ _ ⟨(name, k), hmem, rfl, hk0, hklen, rfl⟩
  · intro j hj
    exact blankLines_get_of_not_target bl name _ j hj

theorem scrub_blanks_valid_line_spot :
    (blankLines [(['a'], 2)] ['a']
        (splitlines ((fun _ => ['x', '\n', 'y', '\n', 'z']) 7)))[((2 : Int) - 1).toNat]? =
      some [] :=
  (scrub_blanks_valid_line [(['a'], 2)] ['a'] 33188 7
    (fun _ => ['x', '\n', 'y', '\n', 'z']) 2 (by decide) (by decide) (by decide)).2.2.1

/-- C4: when every finding for this path is non-positive or beyond the line
count, the line buffer is unchanged by scrubbing: the findings are silently
skipped, and the rewritten output is just the normalized join of the
untouched lines (byte-identical to the input whenever the input is already
in normalized form). -/
theorem scrub_out_of_range_skipped :
    ∀ (bad_lines : List FindingEntry) (name : List Char) (mode blob_id : Nat)
      (fetch : Nat → List Char),
      hasSecret bad_lines name = true →
      (∀ p ∈ bad_lines, p.1 = name →
        p.2 ≤ 0 ∨ ((splitlines (fetch blob_id)).length : Int) < p.2) →
      blankLines bad_lines name (splitlines (fetch blob_id)) =
          splitlines (fetch blob_id)
      ∧ scrub bad_lines name mode blob_id fetch =
          ScrubResult.rewritten name mode
            (joinNL (splitlines (fetch blob_id)) ++ ['\n'])
      ∧ (joinNL (splitlines (fetch blob_id)) ++ ['\n'] = fetch blob_id →
          scrub bad_lines name mode blob_id fetch =
            ScrubResult.rewritten name mode (fetch blob_id)) := by
  intro bl name mode blob_id fetch hsec hout
  have hno : blankLines bl name (splitlines (fetch blob_id)) =
      splitlines (fetch blob_id) :=
    blankLines_noop_of_out_of_range bl name _ hout
  have heq : scrub bl name mode blob_id fetch =
      ScrubResult.rewritten name mode
        (joinNL (splitlines (fetch blob_id)) ++ ['\n']) := by
    rw [scrub, if_pos hsec]
    unfold scrubContents
    rw [hno]
  exact ⟨hno, heq, fun hbyte => by rw [heq, hbyte]⟩

theorem scrub_out_of_range_skipped_spot :
    scrub [(['a'], 0), (['a'], -1), (['a'], 3)] ['a'] 33188 7
        (fun _ => ['x', '\n', 'y', '\n']) =
      ScrubResult.rewritten ['a'] 33188 ['x', '\n', 'y', '\n'] :=
  (scrub_out_of_range_skipped [(['a'], 0), (['a'], -1), (['a'], 3)] ['a'] 33188 7
    (fun _ => ['x', '\n', 'y', '\n']) (by decide) (by decide)).2.2 (by decide)

/-- C5: for a path with findings the output is the possibly blanked lines
joined by single newlines plus exactly one appended trailing newline; the
output therefore ends in a newline, and the output is the same whether or
not the original content carried a final newline. -/
theorem scrub_single_trailing_newline :
    ∀ (bad_lines : List FindingEntry) (name : List Char) (mode blob_id : Nat)
      (fetch : Nat → List Char),
      hasSecret bad_lines name = true →
      scrub bad_lines name mode blob_id fetch =
        ScrubResult.rewritten name mode
          (joinNL (blankLines bad_lines name (splitlines (fetch blob_id))) ++ ['\n'])
      ∧ (∀ cc : List Char,
          scrub bad_lines name mode blob_id fetch =
            ScrubResult.rewritten name mode cc → cc.getLast? = some '\n')
      ∧ (∀ (cs : List Char) (c : Char), isLineBreak c = false →
          scrubContents bad_lines name (cs ++ [c, '\n']) =
            scrubContents bad_lines name (cs ++ [c])) := by
  intro bl name mode blob_id fetch hsec
  have heq : scrub bl name mode blob_id fetch =
      ScrubResult.rewritten name mode
        (joinNL (blankLines bl name (splitlines (fetch blob_id))) ++ ['\n']) := by
    rw [scrub, if_pos hsec]
    rfl
  refine ⟨heq, ?_, fun cs c hc => scrubContents_trailing_invariant bl name cs c hc⟩
  intro cc hcc
  rw [heq] at hcc
  have h3eq : joinNL (blankLines bl name (splitlines (fetch blob_id))) ++ ['\n'] = cc := by
    injection hcc.symm with h1 h2 h3
    exact h3.symm
  rw [← h3eq, List.getLast?_concat]

theorem scrub_single_trailing_newline_spot :
    scrubContents [(['a'], 1)] ['a'] (['x', 'y'] ++ ['z', '\n']) =
      scrubContents [(['a'], 1)] ['a'] (['x', 'y'] ++ ['z']) :=
  ((scrub_single_trailing_newline [(['a'], 1)] ['a'] 33188 7
    (fun _ => ['x'])) (by decide)).2.2 ['x', 'y'] 'z' (by decide)

/-- C6: redaction is case-sensitive literal substring replacement: a
message without SECRET is returned value-equal; every occurrence of SECRET
is replaced by [REDACTED], so none remains afterwards; lowercase secret is
untouched and the exact message SECRET becomes exactly [REDACTED]. -/
theorem redact_literal_replacement :
    ∀ (m u v : List Nat),
      (occursIn SECRETB m = false → redact m = m)
      ∧ (occursIn SECRETB u = false →
          redact (u ++ SECRETB ++ v) = u ++ REDACTEDB ++ replaceSecret v)
      ∧ occursIn SECRETB (redact m) = false
      ∧ redact secretLowerB = secretLowerB
      ∧ redact SECRETB = REDACTEDB := by
  intro m u v
  refine ⟨fun hno => ?_, fun hu => ?_, occursIn_redact m, by decide, ?_⟩
  · rw [redact, hno]
    simp
  · have hocc : occursIn SECRETB (u ++ SECRETB ++ v) = true := by
      rw [List.append_assoc]
      exact occursIn_append_of_isPrefixOf u (SECRETB ++ v)
        (by rw [List.isPrefixOf_iff_prefix]; exact List.prefix_append _ _)
    rw [redact, hocc]
    simp only [if_true]
    exact replaceSecret_append_first u v hu
  · simp [redact, replaceSecret, SECRETB, REDACTEDB, occursIn, List.isPrefixOf]

theorem redact_literal_replacement_spot :
    redact ([88] ++ SECRETB ++ [89]) = [88] ++ REDACTEDB ++ replaceSecret [89] :=
  (redact_literal_replacement [] [88] [89]).2.1 (by decide)

/-- C7: redaction is idempotent: redacting an already redacted message
changes nothing, for every byte message. -/
theorem redact_idempotent (m : List Nat) : redact (redact m) = redact m := by
  have h := occursIn_redact m
  rw [redact, h]
  simp

theorem redact_idempotent_spot : redact (redact [83]) = redact [83] :=
  redact_idempotent [83]

/-- C8: a failing findings source surfaces as the configuration error
itself: the callback returns the error, never a scrub result, and with a
successfully loaded index it scrubs normally. -/
theorem findingIndex_failure_fatal :
    ∀ (e : ConfigError) (filename : List Char) (mode blob_id : Nat)
      (fetch : Nat → List Char) (bad_lines : List FindingEntry),
      fileInfoCallback (Except.error e) filename mode blob_id fetch = Except.error e
      ∧ (∀ r : ScrubResult,
          fileInfoCallback (Except.error e) filename mode blob_id fetch ≠
            Except.ok r)
      ∧ fileInfoCallback (Except.ok bad_lines) filename mode blob_id fetch =
          Except.ok (scrub bad_lines filename mode blob_id fetch) := by
  intro e filename mode blob_id fetch bl
  refine ⟨rfl, ?_, rfl⟩
  intro r
  simp [fileInfoCallback]

theorem findingIndex_failure_fatal_spot :
    fileInfoCallback (Except.error ConfigError.unreadable) [] 0 0 (fun _ => []) =
      Except.error ConfigError.unreadable :=
  (findingIndex_failure_fatal ConfigError.unreadable [] 0 0 (fun _ => []) []).1

/-- C9: the total is taken from the stats source and any failure defaults
it to 0 without aborting: the run proceeds and appends its lines normally,
and with total 0 every written percentage value is exactly 0. -/
theorem stats_default_never_fatal :
    ∀ (ids : List String) (n : Nat),
      (initState (some n)).total_commits = n
      ∧ (initState none).total_commits = 0
      ∧ (runLedger none ids).progress = expectedLines 0 [] 0 ids
      ∧ (∀ line ∈ (runLedger none ids).progress, line.pct = 0) := by
  intro ids n
  have hp : (runLedger none ids).progress = expectedLines 0 [] 0 ids := by
    rw [runLedger, foldl_record_progress]
    simp [initState]
  refine ⟨rfl, rfl, hp, ?_⟩
  intro line hline
  rw [hp] at hline
  rw [expectedLines_pct ids [] 0 0 line hline, pctOf_zero]

theorem stats_default_never_fatal_spot :
    (⟨"a", 0, 1, pctOf 0 1⟩ : ProgressLine).pct = 0 :=
  (stats_default_never_fatal ["a"] 5).2.2.2 ⟨"a", 0, 1, pctOf 0 1⟩ (by decide)

/-- C10: scrubbed output is fully newline-normalized: every character other
than the newline separators is a non-boundary character, in particular no
carriage return survives; and splitlines treats CRLF and lone CR as
boundaries. -/
theorem scrub_normalizes_line_endings :
    ∀ (bad_lines : List FindingEntry) (name : List Char) (mode blob_id : Nat)
      (fetch : Nat → List Char) (cc : List Char),
      hasSecret bad_lines name = true →
      scrub bad_lines name mode blob_id fetch = ScrubResult.rewritten name mode cc →
      (∀ c ∈ cc, c ≠ '\n' → isLineBreak c = false)
      ∧ ¬ '\r' ∈ cc
      ∧ splitlines ['a', '\r', '\n', 'b', '\r', 'c'] = [['a'], ['b'], ['c']] := by
  intro bl name mode blob_id fetch cc hsec heq
  rw [scrub, if_pos hsec] at heq
  have hcc : scrubContents bl name (fetch blob_id) = cc := by
    injection heq with h1 h2 h3
  refine ⟨?_, ?_, by decide⟩
  · intro c hc hne
    rw [← hcc] at hc
    exact scrubContents_no_break bl name (fetch blob_id) c hc hne
  · intro hr
    rw [← hcc] at hr
    have := scrubContents_no_break bl name (fetch blob_id) '\r' hr (by decide)
    simp [isLineBreak] at this

theorem scrub_normalizes_line_endings_spot :
    ¬ '\r' ∈ ['\n', 'y', '\n'] :=
  (scrub_normalizes_line_endings [(['a'], 1)] ['a'] 33188 7
    (fun _ => ['x', '\r', '\n', 'y']) ['\n', 'y', '\n']
    (by decide) (by decide)).2.1

end CleanSecrets
